import Mathlib

/-!
Verification development for the `net/http/httptrace` server-trace sketch
(`server.go`, and the variant file with the five named hook slots).

The embedding models the package state explicitly:

* A `ServerTrace` value lives at an address (`Addr`) in a `Heap`; the source
  mutates trace structs in place through pointers, so heap addresses stand
  for `*ServerTrace` pointers.
* Each trace has five hook slots (the variant source names them
  `GotBadRequest`, `GotRequest`, `WroteHeader`, `WroteBodyChunk`,
  `HandlerDone`); a slot is `Option Hook` — `none` is a nil func field.
  The source leaves the slots' concrete func types as placeholders
  (the payload structs are empty); following the spec each slot is a
  callback taking one opaque payload, so one opaque `Payload` type serves
  all five slots.
* A `Hook` is a function value: either a caller-supplied callback
  (`Hook.base id`, identified by an id so invocations are observable), or
  the wrapper synthesized by `compose` via `reflect.MakeFunc`.  The wrapper
  closes over a *snapshot* of the new field's value (`tfCopy :=
  reflect.ValueOf(tf.Interface())`) but over the old field's *location*
  (`of := ov.Field(i)`; `of.Call` reads that struct field when the wrapper
  runs), so the wrapper constructor stores a `Hook` value for the first
  call and an (address, slot index) location for the second.
* `context.Context` is an immutable chain; only the package's reserved key
  `serverEventContextKey{}` is relevant, so a chain node either carries a
  trace address under that key (`withValue`) or is an unrelated derivation
  (`withOther`).
-/

namespace HttpTrace

/-- Heap address of a `*ServerTrace` (a Go pointer identity). -/
abbrev Addr := Nat

/-- Index of one of the five hook slots of `ServerTrace`
(0 = GotBadRequest, 1 = GotRequest, 2 = WroteHeader, 3 = WroteBodyChunk,
4 = HandlerDone). -/
abbrev SlotIdx := Fin 5

/-- Opaque event payload (the source's payload structs are empty
placeholders; the payload is passed through unexamined). -/
abbrev Payload := Nat

/-- A hook function value: a caller-supplied callback (identified by `id`),
or the wrapper `compose` builds with `reflect.MakeFunc`, which first calls a
snapshot (`tfCopy`) of the new slot's previous value and then calls whatever
the old struct's field `ofIdx` at address `ofAddr` holds at call time
(`of.Call`, where `of` is the addressable reflect value of that field). -/
inductive Hook where
  | base (id : Nat)
  | wrapper (tfCopy : Hook) (ofAddr : Addr) (ofIdx : SlotIdx)
deriving DecidableEq

/-- `ServerTrace` as an aggregate of independently-nilable hook slots,
accessed generically by index (the source iterates the struct's fields by
reflection). -/
@[ext]
structure ServerTrace where
  slots : SlotIdx → Option Hook

/-- The mutable store of trace structs, indexed by pointer. -/
abbrev Heap := Addr → ServerTrace

/-- A context chain.  `withValue parent a` is
`context.WithValue(parent, serverEventContextKey{}, a)`; `withOther parent`
is any derivation that does not touch the reserved key. -/
inductive Ctx where
  | background
  | withOther (parent : Ctx)
  | withValue (parent : Ctx) (trace : Addr)

/-- `ContextServerTrace` returns the ServerTrace associated with the
provided context; if none, it returns nil.  A pure read of the chain. -/
def ContextServerTrace : Ctx → Option Addr
  | .background => none
  | .withOther parent => ContextServerTrace parent
  | .withValue _ trace => some trace

/-- Write one slot of the struct at `addr` (`tv.Field(i).Set(...)`). -/
def heapSet (h : Heap) (addr : Addr) (i : SlotIdx) (v : Option Hook) : Heap :=
  fun x =>
    if x = addr then { slots := fun j => if j = i then v else (h addr).slots j }
    else h x

/-- One iteration of `compose`'s field loop, for field `i` of the new trace
at `tAddr` and the old trace at `oAddr`:

* `of.IsNil()`  → continue (slot untouched);
* `tf.IsNil()`  → `tf.Set(of)` (copy the old slot's current value);
* both non-nil → overwrite `tf` with the `MakeFunc` wrapper closing over
  the snapshot `tfCopy` of `tf` and the field location `(oAddr, i)`. -/
def composeStep (h : Heap) (tAddr oAddr : Addr) (i : SlotIdx) : Heap :=
  match (h oAddr).slots i with
  | none => h
  | some oldHook =>
    match (h tAddr).slots i with
    | none => heapSet h tAddr i (some oldHook)
    | some tHook => heapSet h tAddr i (some (Hook.wrapper tHook oAddr i))

/-- The free `compose(tv, ov)` of the variant source: the field loop over
all five slots of the struct (every slot of the modelled schema is a func
field, so the `Kind() != reflect.Func` skip never fires). -/
def compose (h : Heap) (tAddr oAddr : Addr) : Heap :=
  (List.finRange 5).foldl (fun hh i => composeStep hh tAddr oAddr i) h

/-- The method `t.compose(old)`: returns at once when `old == nil`,
otherwise runs the field loop. -/
def composePtr (h : Heap) (tAddr : Addr) (old : Option Addr) : Heap :=
  match old with
  | none => h
  | some oAddr => compose h tAddr oAddr

/-- The body of `WithServerTrace` after the nil check: look up the old
trace, compose the new trace with it in place, and derive a child context
mapping the reserved key to the (now merged) new trace. -/
def bindCore (h : Heap) (ctx : Ctx) (tAddr : Addr) : Heap × Ctx :=
  let old := ContextServerTrace ctx
  (composePtr h tAddr old, Ctx.withValue ctx tAddr)

/-- `WithServerTrace(ctx, trace)`: panics on a nil trace (modelled as
`none`), otherwise binds.  The result carries the updated heap and the new
context. -/
def WithServerTrace (h : Heap) (ctx : Ctx) (trace : Option Addr) :
    Option (Heap × Ctx) :=
  match trace with
  | none => none
  | some tAddr => some (bindCore h ctx tAddr)

/-- Invoke a hook function value with a payload, in heap `h`, producing the
list of caller-callback invocations `(id, payload)` in execution order.
`fuel` bounds the call depth: `none` means the bound was exhausted (or a
nil func was called, which in Go panics).  A `base` callback records one
invocation; a wrapper first runs its snapshot, then reads the old field
location *at call time* and runs what it finds there. -/
def runHook : Nat → Heap → Hook → Payload → Option (List (Nat × Payload))
  | _, _, Hook.base id, p => some [(id, p)]
  | 0, _, Hook.wrapper _ _ _, _ => none
  | fuel + 1, h, Hook.wrapper tfCopy ofAddr ofIdx, p =>
    match runHook fuel h tfCopy p with
    | none => none
    | some e1 =>
      match (h ofAddr).slots ofIdx with
      | none => none
      | some ofHook =>
        match runHook fuel h ofHook p with
        | none => none
        | some e2 => some (e1 ++ e2)

/-- `true` iff a trace was ever bound along the chain (regardless of what
later derivations did) — the spec's "nothing ever bound". -/
def hasTraceBound : Ctx → Bool
  | .background => false
  | .withOther parent => hasTraceBound parent
  | .withValue _ _ => true

/-- The per-field merge policy of `compose`, as a value-level function:
given the new slot's and the old slot's current values, the final value of
the new slot (`oAddr`, `i` locate the old field for the wrapper). -/
def composeField (tf oldF : Option Hook) (oAddr : Addr) (i : SlotIdx) :
    Option Hook :=
  match oldF with
  | none => tf
  | some oldHook =>
    match tf with
    | none => some oldHook
    | some tHook => some (Hook.wrapper tHook oAddr i)

/-- A heap of freshly created traces: the trace at `a` has, for each slot
`i`, the caller-supplied callback `Hook.base id` when `ids a i = some id`,
and a nil slot otherwise. -/
def initHeap (ids : Addr → SlotIdx → Option Nat) : Heap :=
  fun a => { slots := fun i => (ids a i).map Hook.base }

/-- Sample callback assignment: every trace has every slot set, with
globally distinct callback ids. -/
def idsAll : Addr → SlotIdx → Option Nat :=
  fun a i => some (5 * a + i.val)

/-- Sample assignment where only the trace at address 0 has callbacks. -/
def idsOnly0 : Addr → SlotIdx → Option Nat :=
  fun a i => if a = 0 then some i.val else none

/-- First bind of the sample scenario: trace 0 onto the background
context. -/
def scen1 : Heap × Ctx := bindCore (initHeap idsAll) Ctx.background 0

/-- Second bind of the sample scenario: trace 1 on top. -/
def scen2 : Heap × Ctx := bindCore scen1.1 scen1.2 1

/-- Third bind of the sample scenario: trace 2 on top. -/
def scen3 : Heap × Ctx := bindCore scen2.1 scen2.2 2

/-- The hook value that `compose` leaves in slot `i` of the most recently
bound trace, for a chain `as` of bound trace addresses (most recent first)
whose traces were created with caller callbacks `ids`.  Derived from the
per-field policy: nobody below set the slot → the caller's own callback
(or nil); the earlier traces set it but the new one did not → a copy of
the previous top's merged value; both set → the `MakeFunc` wrapper closing
over the new callback and the previous top's field location. -/
def expectedSlot (ids : Addr → SlotIdx → Option Nat) :
    List Addr → SlotIdx → Option Hook
  | [], _ => none
  | [b], i => (ids b i).map Hook.base
  | b :: a :: rest, i =>
    match expectedSlot ids (a :: rest) i, ids b i with
    | none, nb => nb.map Hook.base
    | some oldHook, none => some oldHook
    | some _, some nb => some (Hook.wrapper (Hook.base nb) a i)

/-- The invocations the spec demands for one slot of a chain: one event per
bound trace that set the slot, most recently bound first, each carrying the
same payload. -/
def expectedEvents (ids : Addr → SlotIdx → Option Nat) (as : List Addr)
    (i : SlotIdx) (p : Payload) : List (Nat × Payload) :=
  as.filterMap (fun a => (ids a i).map (fun id => (id, p)))

/-- Invariant tying a heap to the chain `as` of trace addresses bound so
far (most recent first): the bound addresses are distinct, the top of every
suffix of the chain holds exactly the merged slots for that suffix, and
every address not yet bound still holds its caller-created slots. -/
def IsChain (ids : Addr → SlotIdx → Option Nat) (h : Heap)
    (as : List Addr) : Prop :=
  as.Nodup ∧
    (∀ a rest, List.IsSuffix (a :: rest) as →
      ∀ i, (h a).slots i = expectedSlot ids (a :: rest) i) ∧
    (∀ a, a ∉ as → ∀ i, (h a).slots i = (ids a i).map Hook.base)

/-- The states reachable by a chain of binds starting from a fresh
background context over a heap of caller-created traces (`initHeap ids`).
Each bind attaches a trace not previously bound in the chain (per the
spec's lifecycle, a hook set is created by its caller and consumed once
bound); unrelated context derivations may be interleaved.  `as` records
the bound addresses, most recent first. -/
inductive Reach (ids : Addr → SlotIdx → Option Nat) :
    Heap → Ctx → List Addr → Prop where
  | init : Reach ids (initHeap ids) Ctx.background []
  | step {h c as} (b : Addr) : Reach ids h c as → b ∉ as →
      Reach ids (bindCore h c b).1 (bindCore h c b).2 (b :: as)
  | other {h c as} : Reach ids h c as → Reach ids h (Ctx.withOther c) as

/-! ### Pointwise characterization of the field loop -/

theorem heapSet_apply_ne (h : Heap) (addr : Addr) (i : SlotIdx)
    (v : Option Hook) (x : Addr) (hx : x ≠ addr) :
    heapSet h addr i v x = h x := by
  simp [heapSet, hx]

theorem heapSet_slots_self (h : Heap) (addr : Addr) (i : SlotIdx)
    (v : Option Hook) :
    (heapSet h addr i v addr).slots i = v := by
  simp [heapSet]

theorem heapSet_slots_ne (h : Heap) (addr : Addr) (i j : SlotIdx)
    (v : Option Hook) (x : Addr) (hij : j ≠ i) :
    (heapSet h addr j v x).slots i = (h x).slots i := by
  by_cases hx : x = addr <;> simp [heapSet, hx, Ne.symm hij]

theorem composeStep_apply_ne (h : Heap) (tAddr oAddr : Addr) (i : SlotIdx)
    (x : Addr) (hx : x ≠ tAddr) :
    composeStep h tAddr oAddr i x = h x := by
  unfold composeStep
  cases (h oAddr).slots i with
  | none => rfl
  | some oldHook =>
    cases (h tAddr).slots i <;> simp [heapSet_apply_ne, hx]

theorem composeStep_slots_ne (h : Heap) (tAddr oAddr : Addr)
    (i j : SlotIdx) (x : Addr) (hij : j ≠ i) :
    ((composeStep h tAddr oAddr j) x).slots i = (h x).slots i := by
  unfold composeStep
  cases (h oAddr).slots j with
  | none => rfl
  | some oldHook =>
    cases (h tAddr).slots j <;> simp [heapSet_slots_ne _ _ _ _ _ _ hij]

theorem composeStep_slots_self (h : Heap) (tAddr oAddr : Addr)
    (i : SlotIdx) :
    ((composeStep h tAddr oAddr i) tAddr).slots i
      = composeField ((h tAddr).slots i) ((h oAddr).slots i) oAddr i := by
  unfold composeStep composeField
  cases (h oAddr).slots i with
  | none => rfl
  | some oldHook =>
    cases (h tAddr).slots i <;> simp [heapSet_slots_self]

theorem foldl_composeStep_apply_ne (l : List SlotIdx) (h : Heap)
    (tAddr oAddr : Addr) (x : Addr) (hx : x ≠ tAddr) :
    (l.foldl (fun hh i => composeStep hh tAddr oAddr i) h) x = h x := by
  induction l generalizing h with
  | nil => rfl
  | cons j rest ih =>
    simp only [List.foldl_cons]
    rw [ih, composeStep_apply_ne _ _ _ _ _ hx]

theorem foldl_composeStep_slots_notMem (l : List SlotIdx) (h : Heap)
    (tAddr oAddr : Addr) (i : SlotIdx) (x : Addr) (hi : i ∉ l) :
    ((l.foldl (fun hh j => composeStep hh tAddr oAddr j) h) x).slots i
      = (h x).slots i := by
  induction l generalizing h with
  | nil => rfl
  | cons j rest ih =>
    simp only [List.foldl_cons]
    rw [ih _ (fun hmem => hi (List.mem_cons_of_mem _ hmem)),
      composeStep_slots_ne]
    exact fun hji => hi (hji ▸ List.mem_cons_self _ _)

theorem foldl_composeStep_slots_mem (l : List SlotIdx) (h : Heap)
    (tAddr oAddr : Addr) (i : SlotIdx) (hnd : l.Nodup) (hi : i ∈ l) :
    ((l.foldl (fun hh j => composeStep hh tAddr oAddr j) h) tAddr).slots i
      = composeField ((h tAddr).slots i) ((h oAddr).slots i) oAddr i := by
  induction l generalizing h with
  | nil => cases hi
  | cons j rest ih =>
    simp only [List.foldl_cons]
    rcases List.mem_cons.mp hi with hji | hmem
    · subst hji
      rw [foldl_composeStep_slots_notMem _ _ _ _ _ _
        (List.Nodup.not_mem hnd), composeStep_slots_self]
    · have hji : j ≠ i := by
        rintro rfl
        exact (List.Nodup.not_mem hnd) hmem
      rw [ih _ (List.Nodup.of_cons hnd) hmem,
        composeStep_slots_ne _ _ _ _ _ _ hji,
        composeStep_slots_ne _ _ _ _ _ _ hji]

/-- Frame property of the field loop: `compose` writes only the new trace's
struct; every other address is untouched. -/
theorem compose_apply_ne (h : Heap) (tAddr oAddr : Addr) (x : Addr)
    (hx : x ≠ tAddr) : (compose h tAddr oAddr) x = h x :=
  foldl_composeStep_apply_ne _ _ _ _ _ hx

/-- The result of the field loop on the new trace, slot by slot. -/
theorem compose_slots (h : Heap) (tAddr oAddr : Addr) (i : SlotIdx) :
    ((compose h tAddr oAddr) tAddr).slots i
      = composeField ((h tAddr).slots i) ((h oAddr).slots i) oAddr i :=
  foldl_composeStep_slots_mem _ _ _ _ _ (List.nodup_finRange 5)
    (List.mem_finRange i)

/-! ### The chain invariant -/

theorem expectedSlot_eq_none_iff (ids : Addr → SlotIdx → Option Nat)
    (as : List Addr) (i : SlotIdx) :
    expectedSlot ids as i = none ↔ ∀ a ∈ as, ids a i = none := by
  induction as with
  | nil => simp [expectedSlot]
  | cons b rest ih =>
    cases rest with
    | nil => simp [expectedSlot, Option.map_eq_none']
    | cons a rest' =>
      cases hrec : expectedSlot ids (a :: rest') i with
      | none =>
        cases hb : ids b i with
        | none => simp_all [expectedSlot]
        | some nb => simp_all [expectedSlot]
      | some oldHook =>
        cases hb : ids b i with
        | none => simp_all [expectedSlot]
        | some nb => simp_all [expectedSlot]

theorem composeField_expectedSlot (ids : Addr → SlotIdx → Option Nat)
    (b a : Addr) (rest : List Addr) (i : SlotIdx) :
    composeField ((ids b i).map Hook.base) (expectedSlot ids (a :: rest) i)
        a i
      = expectedSlot ids (b :: a :: rest) i := by
  cases hrec : expectedSlot ids (a :: rest) i <;> cases hb : ids b i <;>
    simp [composeField, expectedSlot, hrec, hb]

theorem isChain_bind (ids : Addr → SlotIdx → Option Nat) (h : Heap)
    (c : Ctx) (as : List Addr) (b : Addr) (hch : IsChain ids h as)
    (hlk : ContextServerTrace c = as.head?) (hb : b ∉ as) :
    IsChain ids (bindCore h c b).1 (b :: as) := by
  obtain ⟨hnd, hsufs, hinit⟩ := hch
  cases as with
  | nil =>
    have hheap : (bindCore h c b).1 = h := by
      simp only [List.head?_nil] at hlk
      simp [bindCore, composePtr, hlk]
    rw [hheap]
    refine ⟨by simp, ?_, ?_⟩
    · intro a rest hsuf i
      obtain ⟨rfl, rfl⟩ : a = b ∧ rest = [] := by
        rcases List.suffix_cons_iff.mp hsuf with heq | hnil
        · exact ⟨List.head_eq_of_cons_eq heq,
            List.tail_eq_of_cons_eq heq⟩
        · cases List.suffix_nil.mp hnil
      rw [hinit a (List.not_mem_nil a) i]
      rfl
    · intro a _ i
      exact hinit a (List.not_mem_nil a) i
  | cons a0 rest0 =>
    have hheap : (bindCore h c b).1 = compose h b a0 := by
      simp only [List.head?_cons] at hlk
      simp [bindCore, composePtr, hlk]
    rw [hheap]
    refine ⟨List.nodup_cons.mpr ⟨hb, hnd⟩, ?_, ?_⟩
    · intro a rest hsuf i
      rcases List.suffix_cons_iff.mp hsuf with heq | htail
      · obtain ⟨rfl, rfl⟩ : a = b ∧ rest = a0 :: rest0 :=
          ⟨List.head_eq_of_cons_eq heq, List.tail_eq_of_cons_eq heq⟩
        rw [compose_slots, hinit a hb i,
          hsufs a0 rest0 (List.suffix_refl _) i]
        exact composeField_expectedSlot ids a a0 rest0 i
      · have hane : a ≠ b := by
          rintro rfl
          exact hb (htail.subset (List.mem_cons_self a rest))
        rw [compose_apply_ne h b a0 a hane]
        exact hsufs a rest htail i
    · intro a ha i
      have hane : a ≠ b := by
        rintro rfl
        exact ha (List.mem_cons_self a (a0 :: rest0))
      rw [compose_apply_ne h b a0 a hane]
      exact hinit a (fun hm => ha (List.mem_cons_of_mem _ hm)) i

theorem reach_isChain (ids : Addr → SlotIdx → Option Nat) {h : Heap}
    {c : Ctx} {as : List Addr} (hr : Reach ids h c as) :
    IsChain ids h as ∧ ContextServerTrace c = as.head? := by
  induction hr with
  | init =>
    refine ⟨⟨List.nodup_nil, ?_, fun a _ i => rfl⟩, rfl⟩
    intro a rest hsuf i
    cases List.suffix_nil.mp hsuf
  | step b hr hb ih =>
    exact ⟨isChain_bind ids _ _ _ b ih.1 ih.2 hb, rfl⟩
  | other hr ih =>
    exact ⟨ih.1, ih.2⟩

theorem runHook_expectedSlot (ids : Addr → SlotIdx → Option Nat) (h : Heap)
    (as : List Addr) (hch : IsChain ids h as) (rest : List Addr) :
    ∀ a, List.IsSuffix (a :: rest) as → ∀ (i : SlotIdx) (k : Hook),
      expectedSlot ids (a :: rest) i = some k → ∀ (p : Payload)
      (fuel : Nat), (a :: rest).length ≤ fuel →
      runHook fuel h k p = some (expectedEvents ids (a :: rest) i p) := by
  induction rest with
  | nil =>
    intro a _ i k hk p fuel _
    cases hid : ids a i with
    | none => simp [expectedSlot, hid] at hk
    | some id =>
      rw [show expectedSlot ids [a] i = (ids a i).map Hook.base from rfl,
        hid] at hk
      obtain rfl : Hook.base id = k := Option.some.inj hk
      simp [runHook, expectedEvents, hid]
  | cons a' rest' ih =>
    intro a hsuf i k hk p fuel hfuel
    have hsuf' : List.IsSuffix (a' :: rest') as :=
      (List.suffix_cons a (a' :: rest')).trans hsuf
    rw [show expectedSlot ids (a :: a' :: rest') i
        = (match expectedSlot ids (a' :: rest') i, ids a i with
          | none, nb => nb.map Hook.base
          | some oldHook, none => some oldHook
          | some _, some nb => some (Hook.wrapper (Hook.base nb) a' i))
      from rfl] at hk
    cases hrec : expectedSlot ids (a' :: rest') i with
    | none =>
      rw [hrec] at hk
      cases hb : ids a i with
      | none => rw [hb] at hk; cases hk
      | some nb =>
        rw [hb] at hk
        obtain rfl : Hook.base nb = k := Option.some.inj hk
        have htail : ∀ x ∈ a' :: rest', ids x i = none :=
          (expectedSlot_eq_none_iff ids (a' :: rest') i).mp hrec
        have hnilev : expectedEvents ids (a' :: rest') i p = [] :=
          List.filterMap_eq_nil_iff.mpr (fun x hx => by rw [htail x hx]; rfl)
        simp [runHook, expectedEvents, hb]
        simpa [expectedEvents] using hnilev
    | some oldHook =>
      rw [hrec] at hk
      cases hb : ids a i with
      | none =>
        rw [hb] at hk
        obtain rfl : oldHook = k := Option.some.inj hk
        have hrun := ih a' hsuf' i oldHook hrec p fuel
          (le_trans (Nat.le_succ _) hfuel)
        rw [hrun]
        simp [expectedEvents, hb]
      | some nb =>
        rw [hb] at hk
        obtain rfl : Hook.wrapper (Hook.base nb) a' i = k :=
          Option.some.inj hk
        obtain ⟨f, rfl⟩ : ∃ f, fuel = f + 1 := by
          rcases fuel with _ | f
          · simp at hfuel
          · exact ⟨f, rfl⟩
        have hfld : (h a').slots i = some oldHook := by
          obtain ⟨_, hsufs, _⟩ := hch
          rw [hsufs a' rest' hsuf' i, hrec]
        have hrun := ih a' hsuf' i oldHook hrec p f (by
          simp only [List.length_cons] at hfuel ⊢
          omega)
        simp [runHook, hfld, hrun, expectedEvents, hb]

/-! ### The claims -/

/-- C1: for any context carrying no server trace, after binding trace `A`
(at address `a`) and then trace `B` (at `b`), both with a callback set on
slot `i`, the looked-up trace of the final context is `B`, whose slot `i`
holds the synthesized wrapper; invoking it with payload `p` runs B's
callback first and A's callback second, each exactly once, both receiving
the same payload `p`. -/
theorem c1_compose_order (h : Heap) (ctx : Ctx) (a b : Addr) (i : SlotIdx)
    (idA idB : Nat) (p : Payload)
    (hnone : ContextServerTrace ctx = none) (hab : a ≠ b)
    (hA : (h a).slots i = some (Hook.base idA))
    (hB : (h b).slots i = some (Hook.base idB)) :
    ContextServerTrace
        (bindCore (bindCore h ctx a).1 (bindCore h ctx a).2 b).2 = some b ∧
      ((bindCore (bindCore h ctx a).1 (bindCore h ctx a).2 b).1 b).slots i
        = some (Hook.wrapper (Hook.base idB) a i) ∧
      ∀ fuel : Nat,
        runHook (fuel + 1)
            (bindCore (bindCore h ctx a).1 (bindCore h ctx a).2 b).1
            (Hook.wrapper (Hook.base idB) a i) p
          = some [(idB, p), (idA, p)] := by
  have key : bindCore (bindCore h ctx a).1 (bindCore h ctx a).2 b
      = (compose h b a, Ctx.withValue (Ctx.withValue ctx a) b) := by
    simp [bindCore, composePtr, ContextServerTrace, hnone]
  rw [key]
  refine ⟨rfl, ?_, ?_⟩
  · show ((compose h b a) b).slots i = _
    rw [compose_slots, hA, hB]
    rfl
  · intro fuel
    have hframe : (compose h b a) a = h a := compose_apply_ne h b a a hab
    show runHook (fuel + 1) (compose h b a) _ p = _
    simp [runHook, hframe, hA]

/-- Witness for C1: binding traces 0 and then 1 of the sample heap on the
background context and invoking slot 0 of the looked-up trace with
payload 9 runs callback 5 (trace 1's) and then callback 0 (trace 0's). -/
theorem c1_compose_order_witness :
    runHook 1 scen2.1 (Hook.wrapper (Hook.base 5) 0 0) 9
      = some [(5, 9), (0, 9)] :=
  (c1_compose_order (initHeap idsAll) Ctx.background 0 1 0 0 5 9 rfl
    (by decide) (by decide) (by decide)).2.2 0

/-- C2 counterexample: binding the caller's trace 1 on a context that
already carries trace 0 overwrites slot 0 of the caller's own object in
place (the composed wrapper replaces the callback the caller set), so the
bind does mutate the slots of the caller-supplied hook set. -/
theorem c2_counterexample :
    ¬ (scen2.1 1).slots 0 = ((initHeap idsAll) 1).slots 0 := by
  decide

/-- C2 amended: WithServerTrace leaves the slots of the caller-supplied
hook set (and the whole heap) unchanged when the context carries no
previously bound hook set; in general the bind writes only the
caller-supplied object's own slots, every other object being untouched
(the caller's object is composed into in place and stored). -/
theorem c2_amended_no_mutation (h : Heap) (ctx : Ctx) (b : Addr) :
    (ContextServerTrace ctx = none → (bindCore h ctx b).1 = h) ∧
      ∀ x : Addr, x ≠ b → (bindCore h ctx b).1 x = h x := by
  constructor
  · intro hnone
    simp [bindCore, composePtr, hnone]
  · intro x hx
    cases hctx : ContextServerTrace ctx with
    | none => simp [bindCore, composePtr, hctx]
    | some a =>
      simp only [bindCore, composePtr, hctx]
      exact compose_apply_ne h b a x hx

/-- Witness for C2 amended: binding trace 3 on the background context
leaves the heap unchanged. -/
theorem c2_amended_no_mutation_witness :
    ContextServerTrace Ctx.background = none ∧
      (bindCore (initHeap idsAll) Ctx.background 3).1 = initHeap idsAll :=
  ⟨rfl, (c2_amended_no_mutation (initHeap idsAll) Ctx.background 3).1 rfl⟩

/-- C3: along any chain of binds from a fresh context (each bind attaching
a trace not bound before, per the hook-set lifecycle), lookup yields
nothing exactly when nothing was bound; otherwise it yields the most
recently bound trace, whose slot `i` is nil exactly when no bound trace
set that slot, and whose non-nil slot `i`, when invoked with payload `p`
(and enough fuel for the nested calls), runs the callback of every bound
trace that set that slot, exactly once each, most recently bound first,
each receiving `p` — the event list `expectedEvents`. -/
theorem c3_chain_invariant (ids : Addr → SlotIdx → Option Nat) {h : Heap}
    {c : Ctx} {as : List Addr} (hr : Reach ids h c as) :
    (ContextServerTrace c = none → as = []) ∧
      ∀ a : Addr, ContextServerTrace c = some a →
        as.head? = some a ∧ as.Nodup ∧
        ∀ i : SlotIdx,
          ((h a).slots i = none ↔ ∀ x ∈ as, ids x i = none) ∧
          ∀ (k : Hook) (p : Payload) (fuel : Nat),
            (h a).slots i = some k → as.length ≤ fuel →
            runHook fuel h k p = some (expectedEvents ids as i p) := by
  obtain ⟨hch, hhead⟩ := reach_isChain ids hr
  constructor
  · intro hn
    have h0 : as.head? = none := hhead.symm.trans hn
    cases as with
    | nil => rfl
    | cons x xs => simp at h0
  · intro a hlk
    have hhead' : as.head? = some a := hhead.symm.trans hlk
    obtain ⟨rest, rfl⟩ : ∃ rest, as = a :: rest := by
      cases as with
      | nil => simp at hhead'
      | cons x xs =>
        simp only [List.head?_cons, Option.some.injEq] at hhead'
        exact ⟨xs, by rw [hhead']⟩
    refine ⟨rfl, hch.1, fun i => ⟨?_, ?_⟩⟩
    · rw [hch.2.1 a rest (List.suffix_refl _) i, expectedSlot_eq_none_iff]
    · intro k p fuel hk hfuel
      have hk' : expectedSlot ids (a :: rest) i = some k := by
        rw [← hch.2.1 a rest (List.suffix_refl _) i]
        exact hk
      exact runHook_expectedSlot ids h (a :: rest) hch rest a
        (List.suffix_refl _) i k hk' p fuel hfuel

/-- Witness for C3: on the two-bind sample chain (traces 0 then 1),
invoking slot 0 of the looked-up trace with payload 3 produces exactly the
expected events of the chain [1, 0]. -/
theorem c3_chain_invariant_witness :
    runHook 2 scen2.1 (Hook.wrapper (Hook.base 5) 0 0) 3
      = some (expectedEvents idsAll [1, 0] 0 3) := by
  have hr : Reach idsAll scen2.1 scen2.2 [1, 0] :=
    Reach.step 1 (Reach.step 0 Reach.init (List.not_mem_nil 0)) (by decide)
  exact (((c3_chain_invariant idsAll hr).2 1 rfl).2.2 0).2
    (Hook.wrapper (Hook.base 5) 0 0) 3 2 (by decide) (by decide)

/-- C4: binding three traces A, B, C in sequence (at distinct addresses
`a`, `b`, `c`), each with a callback on the common slot `i`, and invoking
that slot on the trace looked up from the final context terminates at
finite call depth and triggers exactly three callback executions, in the
order C, B, A. -/
theorem c4_three_binds (h : Heap) (ctx : Ctx) (a b c : Addr) (i : SlotIdx)
    (idA idB idC : Nat) (p : Payload)
    (hnone : ContextServerTrace ctx = none)
    (hab : a ≠ b) (hac : a ≠ c) (hbc : b ≠ c)
    (hA : (h a).slots i = some (Hook.base idA))
    (hB : (h b).slots i = some (Hook.base idB))
    (hC : (h c).slots i = some (Hook.base idC)) :
    ContextServerTrace
        (bindCore
          (bindCore (bindCore h ctx a).1 (bindCore h ctx a).2 b).1
          (bindCore (bindCore h ctx a).1 (bindCore h ctx a).2 b).2 c).2
      = some c ∧
      ((bindCore
          (bindCore (bindCore h ctx a).1 (bindCore h ctx a).2 b).1
          (bindCore (bindCore h ctx a).1 (bindCore h ctx a).2 b).2 c).1
            c).slots i
        = some (Hook.wrapper (Hook.base idC) b i) ∧
      ∀ fuel : Nat,
        runHook (fuel + 2)
            (bindCore
              (bindCore (bindCore h ctx a).1 (bindCore h ctx a).2 b).1
              (bindCore (bindCore h ctx a).1 (bindCore h ctx a).2 b).2
              c).1
            (Hook.wrapper (Hook.base idC) b i) p
          = some [(idC, p), (idB, p), (idA, p)] := by
  have key : bindCore
      (bindCore (bindCore h ctx a).1 (bindCore h ctx a).2 b).1
      (bindCore (bindCore h ctx a).1 (bindCore h ctx a).2 b).2 c
      = (compose (compose h b a) c b,
          Ctx.withValue (Ctx.withValue (Ctx.withValue ctx a) b) c) := by
    simp [bindCore, composePtr, ContextServerTrace, hnone]
  rw [key]
  have h2b : ((compose h b a) b).slots i
      = some (Hook.wrapper (Hook.base idB) a i) := by
    rw [compose_slots, hA, hB]
    rfl
  have h2a : (compose h b a) a = h a := compose_apply_ne h b a a hab
  have h2c : (compose h b a) c = h c :=
    compose_apply_ne h b a c (Ne.symm hbc)
  have h3b : (compose (compose h b a) c b) b = (compose h b a) b :=
    compose_apply_ne (compose h b a) c b b hbc
  have h3a : (compose (compose h b a) c b) a = (compose h b a) a :=
    compose_apply_ne (compose h b a) c b a hac
  refine ⟨rfl, ?_, ?_⟩
  · show ((compose (compose h b a) c b) c).slots i = _
    rw [compose_slots, h2c, hC, h2b]
    rfl
  · intro fuel
    show runHook (fuel + 1 + 1) (compose (compose h b a) c b) _ p = _
    simp [runHook, h3b, h2b, h3a, h2a, hA]

/-- Witness for C4: binding traces 0, 1, 2 of the sample heap in sequence
and invoking slot 0 with payload 4 yields exactly the three events
(10, 4), (5, 4), (0, 4) — callbacks C, B, A in order. -/
theorem c4_three_binds_witness :
    runHook 2 scen3.1 (Hook.wrapper (Hook.base 10) 1 0) 4
      = some [(10, 4), (5, 4), (0, 4)] :=
  (c4_three_binds (initHeap idsAll) Ctx.background 0 1 2 0 0 5 10 4 rfl
    (by decide) (by decide) (by decide) (by decide) (by decide)
    (by decide)).2.2 0

/-- C5: WithServerTrace with a nil trace panics (modelled: returns no
context at all), for every context; with any non-nil trace the nil check
passes and a context is returned. -/
theorem c5_nil_trace_panics (h : Heap) (ctx : Ctx) :
    WithServerTrace h ctx none = none ∧
      ∀ b : Addr, WithServerTrace h ctx (some b) = some (bindCore h ctx b) :=
  ⟨rfl, fun _ => rfl⟩

/-- C6: on a context with no hook set bound anywhere along its chain,
binding the trace at `b` stores `b` itself and leaves the heap — in
particular every slot of the trace at `b` — exactly as the caller supplied
it, so the looked-up hook set is observationally equal to the bound one. -/
theorem c6_first_bind_identity (h : Heap) (ctx : Ctx) (b : Addr)
    (hnone : ContextServerTrace ctx = none) :
    ContextServerTrace (bindCore h ctx b).2 = some b ∧
      (bindCore h ctx b).1 = h ∧
      ∀ i : SlotIdx, ((bindCore h ctx b).1 b).slots i = (h b).slots i := by
  have hheap : (bindCore h ctx b).1 = h := by
    simp [bindCore, composePtr, hnone]
  exact ⟨rfl, hheap, fun i => by rw [hheap]⟩

/-- Witness for C6: first bind of sample trace 0 leaves its slot 0
untouched. -/
theorem c6_first_bind_identity_witness :
    ((bindCore (initHeap idsAll) Ctx.background 0).1 0).slots 0
      = ((initHeap idsAll) 0).slots 0 :=
  (c6_first_bind_identity (initHeap idsAll) Ctx.background 0 rfl).2.2 0

/-- C7: binding a trace whose slots are all nil on top of a previously
bound trace makes every slot of the merged (stored) trace exactly the
previously bound trace's callback for that slot. -/
theorem c7_passthrough (h : Heap) (ctx : Ctx) (a b : Addr)
    (hold : ContextServerTrace ctx = some a)
    (hnil : ∀ i : SlotIdx, (h b).slots i = none) :
    ∀ i : SlotIdx, ((bindCore h ctx b).1 b).slots i = (h a).slots i := by
  intro i
  have hheap : (bindCore h ctx b).1 = compose h b a := by
    simp [bindCore, composePtr, hold]
  rw [hheap, compose_slots, hnil i]
  cases (h a).slots i <;> rfl

/-- Witness for C7: binding the all-nil trace 1 on top of the bound
trace 0 copies trace 0's slot 2 callback into the merged trace. -/
theorem c7_passthrough_witness :
    ((bindCore (initHeap idsOnly0) (Ctx.withValue Ctx.background 0) 1).1
        1).slots 2
      = ((initHeap idsOnly0) 0).slots 2 :=
  c7_passthrough (initHeap idsOnly0) (Ctx.withValue Ctx.background 0) 0 1
    rfl (by decide) 2

/-- C8: ContextServerTrace is a pure function of the context chain: it is
absent exactly when no trace was ever bound along the chain (never a
fabricated empty hook set), returns the most recently bound trace through
unrelated derivations, and reads the reserved key only. -/
theorem c8_lookup_pure_read :
    (∀ c : Ctx, ContextServerTrace c = none ↔ hasTraceBound c = false) ∧
      ContextServerTrace Ctx.background = none ∧
      (∀ c : Ctx,
        ContextServerTrace (Ctx.withOther c) = ContextServerTrace c) ∧
      ∀ (c : Ctx) (a : Addr),
        ContextServerTrace (Ctx.withValue c a) = some a := by
  refine ⟨?_, rfl, fun _ => rfl, fun _ _ => rfl⟩
  intro c
  induction c with
  | background => simp [ContextServerTrace, hasTraceBound]
  | withOther parent ih => simpa [ContextServerTrace, hasTraceBound] using ih
  | withValue parent a _ => simp [ContextServerTrace, hasTraceBound]

/-- C9: for every heap, context and non-nil trace at address `b`,
WithServerTrace succeeds and the trace looked up from the returned context
is the very address `b` the caller passed — the stored hook set is the
caller's own object, not a copy. -/
theorem c9_pointer_identity (h : Heap) (ctx : Ctx) (b : Addr) :
    WithServerTrace h ctx (some b) = some (bindCore h ctx b) ∧
      ContextServerTrace (bindCore h ctx b).2 = some b :=
  ⟨rfl, rfl⟩

/-- C10 counterexample: binding the very trace object already bound in the
context (address 0 bound twice) makes compose write that object's own
slots, so the previously bound hook set is changed by the bind. -/
theorem c10_counterexample :
    ¬ ((bindCore scen1.1 scen1.2 0).1 0).slots 0 = (scen1.1 0).slots 0 := by
  decide

/-- C10 amended: composition writes only the newly bound trace's slots, so
a bind on a context carrying a previously bound hook set leaves every slot
of that previous set unchanged, provided the newly bound object is
distinct from the previously bound one. -/
theorem c10_amended_frame (h : Heap) (ctx : Ctx) (a b : Addr)
    (hold : ContextServerTrace ctx = some a) (hab : a ≠ b) :
    (bindCore h ctx b).1 a = h a := by
  have hheap : (bindCore h ctx b).1 = compose h b a := by
    simp [bindCore, composePtr, hold]
  rw [hheap]
  exact compose_apply_ne h b a a hab

/-- Witness for C10 amended: binding trace 1 on a context carrying trace 0
leaves the trace at address 0 unchanged. -/
theorem c10_amended_frame_witness :
    (bindCore (initHeap idsAll) (Ctx.withValue Ctx.background 0) 1).1 0
      = (initHeap idsAll) 0 :=
  c10_amended_frame (initHeap idsAll) (Ctx.withValue Ctx.background 0) 0 1
    rfl (by decide)

end HttpTrace
